import Mathlib

/-!
# Multi-Pass OCR Consensus Engine: a shallow embedding

This file embeds the core of the PDF-to-text converter (`app.py`) in Lean:
the image-preprocessing variant pipeline (`preprocess_image`), the
multi-pass OCR scheduler and consensus selector (`ocr_multiple_passes`),
and the document orchestrator (`process_pdf`).  External collaborators
(PIL image operations, the Tesseract backend, the PDF rasterizer, the
file sink) are modelled as parameters; Python strings are modelled as
`List Char`; the float literal `1.2` in the merge threshold is modelled
by the exact rational comparison `len(merged) * 5 > len(best) * 6`.
-/

namespace PdfOcr

/-- Python text is modelled as a list of characters. -/
abbrev Str := List Char

/-- The whitespace characters removed by Python's `str.strip()`
(ASCII whitespace: space, tab, newline, carriage return, vertical tab,
form feed). -/
def isPySpace (c : Char) : Bool :=
  c = ' ' || c = '\t' || c = '\n' || c = '\r' || c.toNat = 11 || c.toNat = 12

/-- Python's `s.strip()`: remove leading and trailing whitespace. -/
def pyStrip (s : Str) : Str :=
  ((s.dropWhile isPySpace).reverse.dropWhile isPySpace).reverse

/-- Python's `s.split('\n')`: split on every newline; the number of
pieces is one more than the number of newlines (so `"".split('\n')` is
`[""]`). -/
def splitNL : Str → List Str
  | [] => [[]]
  | c :: rest =>
    if c = '\n' then [] :: splitNL rest
    else
      match splitNL rest with
      | [] => [[c]]
      | l :: ls => (c :: l) :: ls

/-- Python's `'\n'.join(lines)`. -/
def joinNL : List Str → Str
  | [] => []
  | [l] => l
  | l :: ls => l ++ '\n' :: joinNL ls

/-- Keep the first occurrence of each element, in first-seen order
(the specification's description of the deduplicated merge). -/
def firstOcc : List Str → List Str
  | [] => []
  | x :: xs => x :: firstOcc (xs.filter (fun y => y ≠ x))
termination_by l => l.length
decreasing_by
  simp only [List.length_cons]
  exact Nat.lt_succ_of_le (List.length_filter_le _ _)

/-- One step of the line-merging loop of `ocr_multiple_passes`
(app.py:572-576): trim the line; if it is non-empty and unseen, record
it in the seen set (first component) and append it to the output list
(second component). -/
def dedupInsert (st : List Str × List Str) (line : Str) : List Str × List Str :=
  let lineClean := pyStrip line
  if lineClean ≠ [] ∧ lineClean ∉ st.1 then (lineClean :: st.1, st.2 ++ [lineClean])
  else st

/-- The deduplicated line list built by `ocr_multiple_passes`
(app.py:568-576): iterate every candidate's lines through
`dedupInsert`, starting from an empty seen set and output list. -/
def collectLines (all_results : List Str) : List Str :=
  (all_results.foldl (fun st r => (splitNL r).foldl dedupInsert st) ([], [])).2

/-- Python's `max(all_results, key=len)`: scan left to right, replacing
the current best only on a strictly greater length, so the earliest
element of maximal length wins (app.py:567). -/
def pyMaxLen (cs : List Str) : Str :=
  match cs with
  | [] => []
  | c :: rest => rest.foldl (fun b x => if b.length < x.length then x else b) c

/-- The Consensus Selector (app.py:564-582): empty candidate set yields
the empty string; otherwise return the deduplicated merge when it is
more than 1.2 times as long as the longest candidate, else the longest
candidate.  `len(merged) > len(best) * 1.2` is the exact comparison
`6 * len(best) < 5 * len(merged)`. -/
def consensusSelect (all_results : List Str) : Str :=
  if all_results.isEmpty then []
  else
    let best := pyMaxLen all_results
    let merged := joinNL (collectLines all_results)
    if 6 * best.length < 5 * merged.length then merged else best

/-- The PIL image operations used by `preprocess_image`, treated as an
external collaborator: copying, `ImageEnhance.Contrast(...).enhance f`,
`ImageEnhance.Sharpness(...).enhance f`, `ImageFilter.MedianFilter(size)`,
`convert('L')`, and the `mode` attribute. -/
structure PILOps (Image : Type) where
  copy : Image → Image
  contrastEnhance : Image → ℚ → Image
  sharpnessEnhance : Image → ℚ → Image
  medianFilter : Image → Nat → Image
  convertL : Image → Image
  mode : Image → String

/-- The Variant Generator `preprocess_image` (app.py:528-541): identity
copy, contrast 1.5×, sharpness 2.0×, median filter of size 3, each
applied to the source image, plus — when the image mode is not the
single-channel grayscale mode `'L'` — grayscale conversion followed by
contrast 2.0×. -/
def preprocessImage {Image : Type} (ops : PILOps Image) (image : Image) : List Image :=
  let processed := [ops.copy image, ops.contrastEnhance image (3 / 2),
    ops.sharpnessEnhance image 2, ops.medianFilter image 3]
  if ops.mode image ≠ "L" then
    processed ++ [ops.contrastEnhance (ops.convertL image) 2]
  else processed

/-- The fixed page-segmentation-mode catalogue of `ocr_multiple_passes`
(app.py:545-550). -/
def psmModes : List (String × String) :=
  [("6", "Uniform block"), ("3", "Automatic"), ("11", "Sparse text"), ("12", "Sparse with OSD")]

/-- The OCR backend (`pytesseract.image_to_string`), modelled as an
external collaborator taking the image, the language configuration and
the config string; `none` models a raised exception. -/
abbrev Backend (Image : Type) := Image → String → String → Option Str

/-- One iteration of the pass loop of `ocr_multiple_passes`
(app.py:553-562) on the state (collected candidates, invocation trace):
pick the layout mode and preprocessed variant cyclically by pass index,
invoke the backend (recorded in the trace), and append the stripped text
to the candidates when the invocation succeeds with non-whitespace
output. -/
def passStep {Image : Type} (backend : Backend Image) (lang : String)
    (variants : List Image) (fallback : Image)
    (st : List Str × List (Nat × String)) (k : Nat) : List Str × List (Nat × String) :=
  let psm := (psmModes.getD (k % psmModes.length) ("", "")).1
  let vIdx := k % variants.length
  let img := variants.getD vIdx fallback
  let trace := st.2 ++ [(vIdx, psm)]
  match backend img lang ("--psm " ++ psm) with
  | none => (st.1, trace)
  | some text => if pyStrip text ≠ [] then (st.1 ++ [pyStrip text], trace) else (st.1, trace)

/-- The pass loop of `ocr_multiple_passes` (app.py:551-562),
instrumented with the sequence of backend invocations as a list of
(variant index, layout mode) pairs.  The fallback image of `getD` is
never used since the variant list is non-empty. -/
def runPasses {Image : Type} (backend : Backend Image) (ops : PILOps Image)
    (image : Image) (lang : String) (numPasses : Nat) : List Str × List (Nat × String) :=
  (List.range numPasses).foldl
    (passStep backend lang (preprocessImage ops image) image) ([], [])

/-- `ocr_multiple_passes` (app.py:543-582): run the scheduled passes and
reduce the collected candidates with the Consensus Selector. -/
def ocrMultiplePasses {Image : Type} (backend : Backend Image) (ops : PILOps Image)
    (image : Image) (lang : String) (numPasses : Nat) : Str :=
  consensusSelect (runPasses backend ops image lang numPasses).1

/-- The notifications emitted by `process_pdf` through its signal
object. -/
inductive Event where
  | progress (p : ℚ)
  | status (s : String)
  | textUpdate (t : Str)
  | finished (path : String) (pages : Nat) (passes : Nat)
  | error (e : String)
deriving DecidableEq

/-- The per-page section string of `process_pdf` (app.py:605):
`f"\n{'='*60}\nPage {i}\n{'='*60}\n\n{text}\n"`. -/
def pageSection (i : Nat) (text : Str) : Str :=
  ['\n'] ++ List.replicate 60 '=' ++ ['\n'] ++ ("Page " ++ toString i).toList
    ++ ['\n'] ++ List.replicate 60 '=' ++ ['\n', '\n'] ++ text ++ ['\n']

/-- The page loop of `process_pdf` (app.py:599-608), with 1-based page
index `i` and the accumulated section list `acc`; returns the emitted
events and the final section list. -/
def pageLoop {Image : Type} (backend : Backend Image) (ops : PILOps Image)
    (lang : String) (numPasses : Nat) (total : Nat) :
    List Image → Nat → List Str → List Event × List Str
  | [], _, acc => ([], acc)
  | img :: rest, i, acc =>
    let pp : ℚ := 1 / 10 + (i : ℚ) / (total : ℚ) * (17 / 20)
    let text := ocrMultiplePasses backend ops img lang numPasses
    let acc' := acc ++ [pageSection i text]
    let evs := [Event.progress pp,
      Event.status ("Processing page " ++ toString i ++ "/" ++ toString total ++ "..."),
      Event.textUpdate (joinNL acc')]
    let next := pageLoop backend ops lang numPasses total rest (i + 1) acc'
    (evs ++ next.1, next.2)

/-- `process_pdf` (app.py:584-623).  The rasterizer
(`convert_from_path`) and the final write are external collaborators
modelled as `Except` values (`Except.error` models a raised exception);
the surrounding `try` turns any such exception into a terminal `error`
event.  The result pairs the emitted event sequence with the written
output content (`none` when nothing was written). -/
def processPdf {Image : Type} (raster : Except String (List Image))
    (write : Str → Except String Unit) (backend : Backend Image) (ops : PILOps Image)
    (lang : String) (numPasses : Nat) (outPath : String) : List Event × Option Str :=
  match raster with
  | Except.error e =>
    ([Event.progress (1 / 20), Event.status "Converting PDF to images...", Event.error e], none)
  | Except.ok images =>
    let total := images.length
    let stage := pageLoop backend ops lang numPasses total images 1 []
    let fullText := joinNL stage.2
    let evs := [Event.progress (1 / 20), Event.status "Converting PDF to images...",
      Event.status ("Found " ++ toString total ++ " pages"), Event.progress (1 / 10)]
      ++ stage.1 ++ [Event.progress (19 / 20)]
    match write fullText with
    | Except.error e => (evs ++ [Event.error e], none)
    | Except.ok _ => (evs ++ [Event.progress 1, Event.finished outPath total numPasses],
        some fullText)

/-- Extract the value of a progress event. -/
def progressOf : Event → Option ℚ
  | Event.progress p => some p
  | _ => none

/-- The per-page section in the exact form written in the specification
(`"\n======\nPage {i}\n======\n\n{text}\n"`, with a six-character
separator), kept for comparison with `pageSection`. -/
def claimedSection (i : Nat) (text : Str) : Str :=
  ("\n======\nPage " ++ toString i ++ "\n======\n\n").toList ++ text ++ ['\n']

/-- A concrete image model used to exercise the embedding on concrete
inputs. -/
structure TestImage where
  mode : String
  tag : Nat
deriving DecidableEq

/-- Concrete PIL operations on `TestImage`: each derivation changes the
tag, grayscale conversion sets the mode to `'L'`, and `copy` is the
identity (a PIL copy is pixel-identical to its source). -/
def testOps : PILOps TestImage where
  copy := id
  contrastEnhance := fun i _ => ⟨i.mode, i.tag + 1⟩
  sharpnessEnhance := fun i _ => ⟨i.mode, i.tag + 2⟩
  medianFilter := fun i _ => ⟨i.mode, i.tag + 3⟩
  convertL := fun i => ⟨"L", i.tag⟩
  mode := fun i => i.mode

/-- A concrete RGB test image. -/
def rgbImage : TestImage := ⟨"RGB", 0⟩

/-! ### Lemmas on the string model -/

theorem dropWhile_dropWhile (p : Char → Bool) (l : Str) :
    (l.dropWhile p).dropWhile p = l.dropWhile p := by
  induction l with
  | nil => rfl
  | cons a l ih => by_cases h : p a <;> simp [List.dropWhile_cons, h, ih]

theorem dropWhile_head_not (p : Char → Bool) (l : Str) (x : Char) (xs : Str)
    (h : l.dropWhile p = x :: xs) : p x = false := by
  induction l with
  | nil => simp at h
  | cons a l ih =>
    rw [List.dropWhile_cons] at h
    by_cases ha : p a
    · rw [if_pos ha] at h; exact ih h
    · rw [if_neg ha] at h
      cases h
      simpa using ha

/-- Stripping never lengthens a string. -/
theorem pyStrip_length_le (s : Str) : (pyStrip s).length ≤ s.length := by
  have h : ∀ l : Str, (l.dropWhile isPySpace).length ≤ l.length :=
    fun l => (List.dropWhile_suffix _).sublist.length_le
  calc (pyStrip s).length
      = ((s.dropWhile isPySpace).reverse.dropWhile isPySpace).length := by
        simp [pyStrip]
    _ ≤ (s.dropWhile isPySpace).reverse.length := h _
    _ = (s.dropWhile isPySpace).length := by simp
    _ ≤ s.length := h _

/-- A stripped string has no trailing whitespace. -/
theorem pyStrip_reverse_dropWhile (s : Str) :
    (pyStrip s).reverse.dropWhile isPySpace = (pyStrip s).reverse := by
  unfold pyStrip
  rw [List.reverse_reverse]
  exact dropWhile_dropWhile _ _

/-- A stripped string has no leading whitespace. -/
theorem pyStrip_dropWhile (s : Str) :
    (pyStrip s).dropWhile isPySpace = pyStrip s := by
  rcases h : (s.dropWhile isPySpace).reverse.dropWhile isPySpace with _ | ⟨y, ys⟩
  · simp [pyStrip, h]
  · have hsuff : ∃ u, u ++ (y :: ys) = (s.dropWhile isPySpace).reverse := by
      obtain ⟨u, hu⟩ := List.dropWhile_suffix (l := (s.dropWhile isPySpace).reverse)
        (p := isPySpace)
      exact ⟨u, by rw [← h]; exact hu⟩
    obtain ⟨u, hu⟩ := hsuff
    rcases hrev : (y :: ys).reverse with _ | ⟨w, ws⟩
    · simp at hrev
    · have hs : s.dropWhile isPySpace = w :: (ws ++ u.reverse) := by
        rw [← List.reverse_reverse (s.dropWhile isPySpace), ← hu]
        simp [hrev]
      have hw : isPySpace w = false := dropWhile_head_not _ _ _ _ hs
      show (pyStrip s).dropWhile isPySpace = pyStrip s
      unfold pyStrip
      rw [h, hrev, List.dropWhile_cons, hw]
      simp

/-- Python's `strip` is idempotent. -/
theorem pyStrip_idem (s : Str) : pyStrip (pyStrip s) = pyStrip s := by
  show ((((pyStrip s).dropWhile isPySpace).reverse.dropWhile isPySpace)).reverse = pyStrip s
  rw [pyStrip_dropWhile, pyStrip_reverse_dropWhile, List.reverse_reverse]

/-- Splitting on newlines always yields at least one piece. -/
theorem splitNL_ne_nil (s : Str) : splitNL s ≠ [] := by
  cases s with
  | nil => simp [splitNL]
  | cons c rest =>
    rw [splitNL]
    by_cases hc : c = '\n'
    · simp [hc]
    · rw [if_neg hc]
      cases h : splitNL rest <;> simp

theorem joinNL_cons_of_ne_nil (l : Str) (ls : List Str) (h : ls ≠ []) :
    joinNL (l :: ls) = l ++ '\n' :: joinNL ls := by
  cases ls with
  | nil => exact absurd rfl h
  | cons l2 ls2 => rfl

/-- Joining the newline-split pieces restores the string. -/
theorem joinNL_splitNL (s : Str) : joinNL (splitNL s) = s := by
  induction s with
  | nil => rfl
  | cons c rest ih =>
    rw [splitNL]
    by_cases hc : c = '\n'
    · rw [if_pos hc, joinNL_cons_of_ne_nil _ _ (splitNL_ne_nil rest), ih, hc]
      rfl
    · rw [if_neg hc]
      cases h : splitNL rest with
      | nil => exact absurd h (splitNL_ne_nil rest)
      | cons l ls =>
        rw [h] at ih
        cases ls with
        | nil =>
          show c :: l = c :: rest
          rw [show l = rest from ih]
        | cons l2 ls2 =>
          rw [joinNL_cons_of_ne_nil _ _ (by simp), List.cons_append,
            ← joinNL_cons_of_ne_nil _ _ (by simp), ih]

/-- The total size of a line list, counting one separator per line:
joining `ls` with newlines produces a string of length
`lineMeasure ls - 1` when `ls` is non-empty. -/
def lineMeasure (ls : List Str) : Nat := (ls.map List.length).sum + ls.length

theorem joinNL_length_eq (ls : List Str) (h : ls ≠ []) :
    (joinNL ls).length + 1 = lineMeasure ls := by
  induction ls with
  | nil => exact absurd rfl h
  | cons l ls ih =>
    cases ls with
    | nil => simp [joinNL, lineMeasure]
    | cons l2 ls2 =>
      rw [joinNL_cons_of_ne_nil _ _ (by simp)]
      have := ih (by simp)
      simp only [lineMeasure, List.map_cons, List.sum_cons, List.length_cons,
        List.length_append] at this ⊢
      omega

theorem joinNL_length_le (ls : List Str) : (joinNL ls).length ≤ lineMeasure ls := by
  cases ls with
  | nil => simp [joinNL, lineMeasure]
  | cons l ls => have := joinNL_length_eq (l :: ls) (by simp); omega

theorem lineMeasure_sublist {l1 l2 : List Str} (h : l1.Sublist l2) :
    lineMeasure l1 ≤ lineMeasure l2 := by
  induction h with
  | slnil => exact le_refl _
  | cons a _ ih => simp only [lineMeasure, List.map_cons, List.sum_cons, List.length_cons] at ih ⊢; omega
  | cons₂ a _ ih => simp only [lineMeasure, List.map_cons, List.sum_cons, List.length_cons] at ih ⊢; omega

theorem lineMeasure_map_pyStrip (ls : List Str) :
    lineMeasure (ls.map pyStrip) ≤ lineMeasure ls := by
  induction ls with
  | nil => simp [lineMeasure]
  | cons l ls ih =>
    have := pyStrip_length_le l
    simp only [lineMeasure, List.map_cons, List.map_map, List.sum_cons, List.length_cons,
      List.length_map, Function.comp] at ih ⊢
    omega

/-- Keeping first occurrences only drops elements. -/
theorem firstOcc_sublist (l : List Str) : (firstOcc l).Sublist l := by
  induction l using firstOcc.induct with
  | case1 => simp [firstOcc]
  | case2 x xs ih =>
    rw [firstOcc]
    exact (ih.trans (List.filter_sublist _)).cons₂ x

/-! ### The deduplicating merge loop -/

/-- The stream of trimmed non-empty lines over all candidates, in
candidate order then line order. -/
def streamAll (cs : List Str) : List Str :=
  (((cs.map splitNL).flatten).map pyStrip).filter (fun t => !t.isEmpty)

/-- The specification's deduplicated merge: the first occurrence of each
distinct non-empty trimmed line across all candidates, in first-seen
order. -/
def mergedLinesSpec (cs : List Str) : List Str := firstOcc (streamAll cs)

/-- Inserting one already-trimmed, non-empty line into the seen/output
state. -/
def seenInsert (st : List Str × List Str) (x : Str) : List Str × List Str :=
  if x ∈ st.1 then st else (x :: st.1, st.2 ++ [x])

theorem dedupInsert_eq (st : List Str × List Str) (line : Str) :
    dedupInsert st line =
      if pyStrip line = [] then st else seenInsert st (pyStrip line) := by
  unfold dedupInsert seenInsert
  by_cases h1 : pyStrip line = []
  · simp [h1]
  · by_cases h2 : pyStrip line ∈ st.1 <;> simp [h1, h2]

theorem foldl_dedupInsert_eq (lines : List Str) (st : List Str × List Str) :
    lines.foldl dedupInsert st =
      ((lines.map pyStrip).filter (fun t => !t.isEmpty)).foldl seenInsert st := by
  induction lines generalizing st with
  | nil => rfl
  | cons line lines ih =>
    rw [List.foldl_cons, dedupInsert_eq, List.map_cons, List.filter_cons]
    by_cases h : pyStrip line = []
    · simp [h, ih]
    · simp [h, ih]

theorem foldl_collect_eq (cs : List Str) (st : List Str × List Str) :
    cs.foldl (fun st r => (splitNL r).foldl dedupInsert st) st =
      (streamAll cs).foldl seenInsert st := by
  induction cs generalizing st with
  | nil => rfl
  | cons c cs ih =>
    have hstream : streamAll (c :: cs) =
        ((splitNL c).map pyStrip).filter (fun t => !t.isEmpty) ++ streamAll cs := by
      simp [streamAll]
    rw [List.foldl_cons, ih, foldl_dedupInsert_eq, hstream, List.foldl_append]

theorem foldl_seenInsert_snd (l : List Str) :
    ∀ s a : List Str, (l.foldl seenInsert (s, a)).2 =
      a ++ firstOcc (l.filter (fun y => decide (y ∉ s))) := by
  induction l with
  | nil => intro s a; simp [firstOcc]
  | cons x l ih =>
    intro s a
    rw [List.foldl_cons]
    by_cases hx : x ∈ s
    · have h1 : seenInsert (s, a) x = (s, a) := by simp [seenInsert, hx]
      have h2 : (x :: l).filter (fun y => decide (y ∉ s)) =
          l.filter (fun y => decide (y ∉ s)) := by
        rw [List.filter_cons]; simp [hx]
      rw [h1, ih, h2]
    · have h1 : seenInsert (s, a) x = (x :: s, a ++ [x]) := by simp [seenInsert, hx]
      have h2 : (x :: l).filter (fun y => decide (y ∉ s)) =
          x :: l.filter (fun y => decide (y ∉ s)) := by
        rw [List.filter_cons]; simp [hx]
      have h3 : l.filter (fun y => decide (y ∉ x :: s)) =
          (l.filter (fun y => decide (y ∉ s))).filter (fun y => decide (y ≠ x)) := by
        rw [List.filter_filter]
        apply List.filter_congr
        intro y _
        by_cases hyx : y = x <;> by_cases hys : y ∈ s <;>
          simp [hyx, hys, List.mem_cons]
      rw [h1, ih, h2, firstOcc, h3]
      simp

theorem collectLines_eq (cs : List Str) : collectLines cs = mergedLinesSpec cs := by
  unfold collectLines mergedLinesSpec
  rw [foldl_collect_eq, foldl_seenInsert_snd]
  have h : (streamAll cs).filter (fun y => decide (y ∉ ([] : List Str))) = streamAll cs := by
    apply List.filter_eq_self.mpr
    intro y _
    simp
  rw [h, List.nil_append]

/-- The merge of a single candidate is never longer than the candidate:
its deduplicated trimmed lines are a shortened sublist of the
candidate's own lines. -/
theorem merged_length_le_single (x : Str) :
    (joinNL (collectLines [x])).length ≤ x.length := by
  rw [collectLines_eq]
  have hsub : (mergedLinesSpec [x]).Sublist ((splitNL x).map pyStrip) := by
    unfold mergedLinesSpec streamAll
    simp only [List.map_cons, List.map_nil, List.flatten_cons, List.flatten_nil,
      List.append_nil]
    exact (firstOcc_sublist _).trans (List.filter_sublist _)
  have h1 := lineMeasure_sublist hsub
  have h2 := lineMeasure_map_pyStrip (splitNL x)
  have h3 : lineMeasure (splitNL x) = x.length + 1 := by
    have h4 := joinNL_length_eq (splitNL x) (splitNL_ne_nil x)
    rw [joinNL_splitNL] at h4
    omega
  cases hml : mergedLinesSpec [x] with
  | nil => simp [joinNL]
  | cons m ms =>
    rw [← hml]
    have h5 := joinNL_length_eq (mergedLinesSpec [x]) (by rw [hml]; simp)
    omega

/-! ### Python's `max(candidates, key=len)` -/

/-- The scan underlying Python's `max(..., key=len)`: replace the
running best only on a strictly greater key, so the earliest maximal
element survives. -/
def maxScan (b : Str) (l : List Str) : Str :=
  l.foldl (fun b x => if b.length < x.length then x else b) b

theorem pyMaxLen_cons (c : Str) (rest : List Str) : pyMaxLen (c :: rest) = maxScan c rest := rfl

theorem maxScan_le (l : List Str) : ∀ b : Str,
    b.length ≤ (maxScan b l).length ∧ ∀ x ∈ l, x.length ≤ (maxScan b l).length := by
  induction l with
  | nil => intro b; exact ⟨le_refl _, by simp⟩
  | cons x l ih =>
    intro b
    have hstep : maxScan b (x :: l) = maxScan (if b.length < x.length then x else b) l := rfl
    obtain ⟨h1, h2⟩ := ih (if b.length < x.length then x else b)
    rw [hstep]
    refine ⟨le_trans ?_ h1, ?_⟩
    · split <;> omega
    · intro y hy
      rcases List.mem_cons.mp hy with rfl | hy
      · refine le_trans ?_ h1; split <;> omega
      · exact h2 y hy

theorem maxScan_mem (l : List Str) : ∀ b : Str, maxScan b l ∈ b :: l := by
  induction l with
  | nil => intro b; simp [maxScan]
  | cons x l ih =>
    intro b
    have hstep : maxScan b (x :: l) = maxScan (if b.length < x.length then x else b) l := rfl
    rw [hstep]
    rcases List.mem_cons.mp (ih (if b.length < x.length then x else b)) with h | h
    · rw [h]
      split
      · simp
      · simp
    · simp [List.mem_cons, h]

theorem maxScan_earliest (l : List Str) : ∀ b : Str,
    ∃ u v, b :: l = u ++ maxScan b l :: v ∧ ∀ x ∈ u, x.length < (maxScan b l).length := by
  induction l with
  | nil => intro b; exact ⟨[], [], rfl, by simp⟩
  | cons x l ih =>
    intro b
    by_cases hbx : b.length < x.length
    · have hstep : maxScan b (x :: l) = maxScan x l := by
        show maxScan (if b.length < x.length then x else b) l = maxScan x l
        rw [if_pos hbx]
      obtain ⟨u, v, hdecomp, hu⟩ := ih x
      refine ⟨b :: u, v, ?_, ?_⟩
      · rw [hstep, List.cons_append, ← hdecomp]
      · intro z hz
        rw [hstep]
        rcases List.mem_cons.mp hz with rfl | hz
        · exact lt_of_lt_of_le hbx (maxScan_le l x).1
        · exact hu z hz
    · have hstep : maxScan b (x :: l) = maxScan b l := by
        show maxScan (if b.length < x.length then x else b) l = maxScan b l
        rw [if_neg hbx]
      obtain ⟨u, v, hdecomp, hu⟩ := ih b
      cases u with
      | nil =>
        simp only [List.nil_append] at hdecomp
        injection hdecomp with hb hv
        refine ⟨[], x :: l, ?_, by simp⟩
        rw [hstep, ← hb]
        simp
      | cons w u2 =>
        injection hdecomp with hw hl
        refine ⟨b :: x :: u2, v, ?_, ?_⟩
        · rw [hstep]
          simp only [List.cons_append, List.cons.injEq, true_and]
          exact hl
        · intro z hz
          rw [hstep]
          have hblt : b.length < (maxScan b l).length := by
            have hw2 := hu w (by simp)
            rw [← hw] at hw2
            exact hw2
          rcases List.mem_cons.mp hz with hzb | hz2
          · rw [hzb]; exact hblt
          · rcases List.mem_cons.mp hz2 with hzx | hz3
            · rw [hzx]; omega
            · exact hu z (by simp [hz3])

/-- `max(candidates, key=len)` returns an element of maximal length,
and every earlier candidate is strictly shorter. -/
theorem pyMaxLen_spec (cs : List Str) (h : cs ≠ []) :
    pyMaxLen cs ∈ cs ∧ (∀ c ∈ cs, c.length ≤ (pyMaxLen cs).length) ∧
      ∃ u v, cs = u ++ pyMaxLen cs :: v ∧ ∀ x ∈ u, x.length < (pyMaxLen cs).length := by
  cases cs with
  | nil => exact absurd rfl h
  | cons c rest =>
    rw [pyMaxLen_cons]
    refine ⟨maxScan_mem rest c, ?_, maxScan_earliest rest c⟩
    intro d hd
    rcases List.mem_cons.mp hd with rfl | hd
    · exact (maxScan_le rest d).1
    · exact (maxScan_le rest c).2 d hd

/-- On a non-empty candidate list the Consensus Selector reduces to the
threshold comparison between the deduplicated merge and the longest
candidate. -/
theorem consensusSelect_branch (cs : List Str) (h : cs ≠ []) :
    consensusSelect cs =
      if 6 * (pyMaxLen cs).length < 5 * (joinNL (mergedLinesSpec cs)).length
      then joinNL (mergedLinesSpec cs) else pyMaxLen cs := by
  have h0 : consensusSelect cs =
      if 6 * (pyMaxLen cs).length < 5 * (joinNL (collectLines cs)).length
      then joinNL (collectLines cs) else pyMaxLen cs := by
    cases cs with
    | nil => exact absurd rfl h
    | cons c rest => rfl
  rw [h0, collectLines_eq]

/-! ### Pass scheduler lemmas -/

/-- The (variant index, layout mode) pair recorded for pass `k`. -/
def passEntry (numVariants : Nat) (k : Nat) : Nat × String :=
  (k % numVariants, (psmModes.getD (k % psmModes.length) ("", "")).1)

/-- The contribution of pass `k` to the candidate list: `none` when the
backend fails or returns whitespace-only text, the stripped text
otherwise. -/
def passResult {Image : Type} (backend : Backend Image) (ops : PILOps Image) (image : Image)
    (lang : String) (k : Nat) : Option Str :=
  match backend ((preprocessImage ops image).getD (k % (preprocessImage ops image).length) image)
      lang ("--psm " ++ (psmModes.getD (k % psmModes.length) ("", "")).1) with
  | none => none
  | some t => if pyStrip t ≠ [] then some (pyStrip t) else none

theorem passStep_trace {Image : Type} (backend : Backend Image) (lang : String)
    (variants : List Image) (fallback : Image) (st : List Str × List (Nat × String)) (k : Nat) :
    (passStep backend lang variants fallback st k).2 = st.2 ++ [passEntry variants.length k] := by
  unfold passStep passEntry
  dsimp only
  generalize backend (variants.getD (k % variants.length) fallback) lang
      ("--psm " ++ (psmModes.getD (k % psmModes.length) ("", "")).1) = o
  cases o with
  | none => rfl
  | some t => by_cases h : pyStrip t = [] <;> simp [h]

theorem passStep_fst {Image : Type} (backend : Backend Image) (ops : PILOps Image)
    (image : Image) (lang : String) (st : List Str × List (Nat × String)) (k : Nat) :
    (passStep backend lang (preprocessImage ops image) image st k).1 =
      st.1 ++ (passResult backend ops image lang k).toList := by
  unfold passStep passResult
  dsimp only
  generalize backend ((preprocessImage ops image).getD
      (k % (preprocessImage ops image).length) image) lang
      ("--psm " ++ (psmModes.getD (k % psmModes.length) ("", "")).1) = o
  cases o with
  | none => simp
  | some t => by_cases h : pyStrip t = [] <;> simp [h]

theorem foldl_passStep_spec {Image : Type} (backend : Backend Image) (ops : PILOps Image)
    (image : Image) (lang : String) (l : List Nat) :
    ∀ st : List Str × List (Nat × String),
      (l.foldl (passStep backend lang (preprocessImage ops image) image) st).1 =
        st.1 ++ l.filterMap (passResult backend ops image lang) ∧
      (l.foldl (passStep backend lang (preprocessImage ops image) image) st).2 =
        st.2 ++ l.map (passEntry (preprocessImage ops image).length) := by
  induction l with
  | nil => intro st; simp
  | cons k l ih =>
    intro st
    rw [List.foldl_cons]
    obtain ⟨ih1, ih2⟩ := ih (passStep backend lang (preprocessImage ops image) image st k)
    constructor
    · rw [ih1, passStep_fst, List.filterMap_cons]
      cases passResult backend ops image lang k <;> simp
    · rw [ih2, passStep_trace, List.map_cons]
      simp

/-- The pass loop produces exactly the candidates described by
`passResult` and records one invocation per pass, with the cyclic
variant/mode schedule. -/
theorem runPasses_spec {Image : Type} (backend : Backend Image) (ops : PILOps Image)
    (image : Image) (lang : String) (n : Nat) :
    (runPasses backend ops image lang n).1 =
      (List.range n).filterMap (passResult backend ops image lang) ∧
    (runPasses backend ops image lang n).2 =
      (List.range n).map (passEntry (preprocessImage ops image).length) := by
  have h := foldl_passStep_spec backend ops image lang (List.range n) ([], [])
  simpa [runPasses] using h

/-- A collected candidate is non-empty and already stripped. -/
theorem passResult_some {Image : Type} (backend : Backend Image) (ops : PILOps Image)
    (image : Image) (lang : String) (k : Nat) (c : Str)
    (h : passResult backend ops image lang k = some c) : c ≠ [] ∧ pyStrip c = c := by
  unfold passResult at h
  cases hb : backend ((preprocessImage ops image).getD
      (k % (preprocessImage ops image).length) image) lang
      ("--psm " ++ (psmModes.getD (k % psmModes.length) ("", "")).1) with
  | none => rw [hb] at h; exact absurd h (by simp)
  | some t =>
    rw [hb] at h
    dsimp only at h
    by_cases ht : pyStrip t = []
    · rw [if_neg (not_not_intro ht)] at h
      exact absurd h (by simp)
    · rw [if_pos ht] at h
      injection h with h
      rw [← h]
      exact ⟨ht, pyStrip_idem t⟩

/-! ### Document orchestrator lemmas -/

theorem pageLoop_sections {Image : Type} (backend : Backend Image) (ops : PILOps Image)
    (lang : String) (n : Nat) (total : Nat) (images : List Image) :
    ∀ (i : Nat) (acc : List Str),
      (pageLoop backend ops lang n total images i acc).2 =
        acc ++ (List.enumFrom i images).map
          (fun p => pageSection p.1 (ocrMultiplePasses backend ops p.2 lang n)) := by
  induction images with
  | nil => intro i acc; simp [pageLoop]
  | cons img rest ih =>
    intro i acc
    simp only [pageLoop, List.enumFrom_cons, List.map_cons]
    rw [ih]
    simp

theorem pageLoop_progress {Image : Type} (backend : Backend Image) (ops : PILOps Image)
    (lang : String) (n : Nat) (total : Nat) (images : List Image) :
    ∀ (i : Nat) (acc : List Str),
      ((pageLoop backend ops lang n total images i acc).1.filterMap progressOf) =
        (List.range' i images.length).map
          (fun j : Nat => 1 / 10 + (j : ℚ) / (total : ℚ) * (17 / 20)) := by
  induction images with
  | nil => intro i acc; simp [pageLoop]
  | cons img rest ih =>
    intro i acc
    simp only [pageLoop, List.length_cons, List.range'_succ, List.map_cons]
    rw [List.filterMap_append, ih]
    simp [progressOf, List.filterMap_cons]

theorem pageLoop_no_terminal {Image : Type} (backend : Backend Image) (ops : PILOps Image)
    (lang : String) (n : Nat) (total : Nat) (images : List Image) :
    ∀ (i : Nat) (acc : List Str) (ev : Event),
      ev ∈ (pageLoop backend ops lang n total images i acc).1 →
        (∀ p pc ps, ev ≠ Event.finished p pc ps) ∧ ∀ e, ev ≠ Event.error e := by
  induction images with
  | nil => intro i acc ev hev; simp [pageLoop] at hev
  | cons img rest ih =>
    intro i acc ev hev
    simp only [pageLoop, List.mem_append, List.mem_cons] at hev
    rcases hev with (h | h | h | h) | h
    · subst h; exact ⟨fun _ _ _ => by simp, fun _ => by simp⟩
    · subst h; exact ⟨fun _ _ _ => by simp, fun _ => by simp⟩
    · subst h; exact ⟨fun _ _ _ => by simp, fun _ => by simp⟩
    · simp at h
    · exact ih _ _ ev h

/-- The document content written by a successful run: one section per
page in ascending page order, joined with a newline. -/
theorem processPdf_ok_ok_snd {Image : Type} (backend : Backend Image) (ops : PILOps Image)
    (lang : String) (n : Nat) (outPath : String) (images : List Image) :
    (processPdf (Except.ok images) (fun _ => Except.ok ()) backend ops lang n outPath).2 =
      some (joinNL ((List.enumFrom 1 images).map
        (fun p => pageSection p.1 (ocrMultiplePasses backend ops p.2 lang n)))) := by
  have h0 : (processPdf (Except.ok images) (fun _ => Except.ok ()) backend ops lang n outPath).2 =
      some (joinNL (pageLoop backend ops lang n images.length images 1 []).2) := rfl
  rw [h0, pageLoop_sections]
  simp

/-- A successful run ends with the `finished` notification. -/
theorem processPdf_ok_ok_getLast {Image : Type} (backend : Backend Image) (ops : PILOps Image)
    (lang : String) (n : Nat) (outPath : String) (images : List Image) :
    (processPdf (Except.ok images) (fun _ => Except.ok ()) backend ops lang n outPath).1.getLast? =
      some (Event.finished outPath images.length n) := by
  have h0 : (processPdf (Except.ok images) (fun _ => Except.ok ()) backend ops lang n outPath).1 =
      ([Event.progress (1 / 20), Event.status "Converting PDF to images...",
        Event.status ("Found " ++ toString images.length ++ " pages"), Event.progress (1 / 10)]
        ++ (pageLoop backend ops lang n images.length images 1 []).1
        ++ [Event.progress (19 / 20)])
      ++ [Event.progress 1, Event.finished outPath images.length n] := rfl
  rw [h0, List.getLast?_append_of_ne_nil _ (by simp)]
  rfl

/-- The full progress sequence of a successful run. -/
theorem processPdf_ok_ok_progress {Image : Type} (backend : Backend Image) (ops : PILOps Image)
    (lang : String) (n : Nat) (outPath : String) (images : List Image) :
    ((processPdf (Except.ok images) (fun _ => Except.ok ()) backend ops lang n
        outPath).1.filterMap progressOf) =
      [1 / 20, 1 / 10] ++ (List.range' 1 images.length).map
        (fun j : Nat => 1 / 10 + (j : ℚ) / (images.length : ℚ) * (17 / 20)) ++ [19 / 20, 1] := by
  have h0 : (processPdf (Except.ok images) (fun _ => Except.ok ()) backend ops lang n outPath).1 =
      ([Event.progress (1 / 20), Event.status "Converting PDF to images...",
        Event.status ("Found " ++ toString images.length ++ " pages"), Event.progress (1 / 10)]
        ++ (pageLoop backend ops lang n images.length images 1 []).1
        ++ [Event.progress (19 / 20)])
      ++ [Event.progress 1, Event.finished outPath images.length n] := rfl
  rw [h0]
  simp only [List.filterMap_append, pageLoop_progress]
  simp [progressOf, List.filterMap_cons]

/-- The progress sequence of a run over `m` pages is non-decreasing. -/
theorem progressSeq_pairwise (m : Nat) :
    ([1 / 20, 1 / 10] ++ (List.range' 1 m).map
      (fun j : Nat => 1 / 10 + (j : ℚ) / (m : ℚ) * (17 / 20)) ++ [19 / 20, 1]).Pairwise (· ≤ ·) := by
  have hbounds : ∀ j ∈ List.range' 1 m,
      (1 : ℚ) / 10 ≤ 1 / 10 + (j : ℚ) / (m : ℚ) * (17 / 20) ∧
        1 / 10 + (j : ℚ) / (m : ℚ) * (17 / 20) ≤ 19 / 20 := by
    intro j hj
    rw [List.mem_range'_1] at hj
    obtain ⟨hj1, hj2⟩ := hj
    have hm0 : 0 < m := by omega
    have hmQ : (0 : ℚ) < (m : ℚ) := by exact_mod_cast hm0
    have hjm : (j : ℚ) ≤ (m : ℚ) := by exact_mod_cast (by omega : j ≤ m)
    have hdiv0 : (0 : ℚ) ≤ (j : ℚ) / (m : ℚ) := by positivity
    have hdiv1 : (j : ℚ) / (m : ℚ) ≤ 1 := by rw [div_le_one hmQ]; exact hjm
    constructor
    · nlinarith
    · nlinarith
  rw [List.pairwise_append]
  refine ⟨?_, by norm_num, ?_⟩
  · rw [List.pairwise_append]
    refine ⟨by norm_num, ?_, ?_⟩
    · rcases Nat.eq_zero_or_pos m with hm | hm
      · subst hm; simp
      · have hmQ : (0 : ℚ) < (m : ℚ) := by exact_mod_cast hm
        refine List.Pairwise.map _ ?_ (List.pairwise_lt_range' 1 m)
        intro a b hab
        have hc : (a : ℚ) ≤ (b : ℚ) := by exact_mod_cast le_of_lt hab
        have : (a : ℚ) / (m : ℚ) ≤ (b : ℚ) / (m : ℚ) := by gcongr
        nlinarith
    · intro a ha b hb
      obtain ⟨j, hj, rfl⟩ := List.mem_map.mp hb
      have h1 := (hbounds j hj).1
      rcases List.mem_cons.mp ha with rfl | ha
      · linarith
      · simp at ha
        rw [ha]
        linarith
  · intro a ha b hb
    have ha19 : a ≤ 19 / 20 := by
      rcases List.mem_append.mp ha with ha | ha
      · rcases List.mem_cons.mp ha with rfl | ha
        · norm_num
        · simp at ha; rw [ha]; norm_num
      · obtain ⟨j, hj, rfl⟩ := List.mem_map.mp ha
        exact (hbounds j hj).2
    rcases List.mem_cons.mp hb with rfl | hb
    · exact ha19
    · simp at hb
      rw [hb]
      linarith

/-! ### Claim theorems -/

/-- **C1**: For every non-empty candidate set, the Consensus Selector's
`best` is the longest candidate with ties broken by the
earliest-produced candidate, its merge equals the first occurrence of
each distinct non-empty trimmed line across all candidates in
first-seen order joined with newline, and it returns the merge exactly
when `len(merged) > 1.2 * len(best)` and `best` otherwise; in
particular on `["AB\nCD", "CD\nEF"]` it returns `"AB\nCD\nEF"`. -/
theorem consensus_selector_spec (cs : List Str) (h : cs ≠ []) :
    (pyMaxLen cs ∈ cs ∧ (∀ c ∈ cs, c.length ≤ (pyMaxLen cs).length) ∧
      ∃ u v, cs = u ++ pyMaxLen cs :: v ∧ ∀ x ∈ u, x.length < (pyMaxLen cs).length) ∧
    collectLines cs = mergedLinesSpec cs ∧
    consensusSelect cs =
      (if 6 * (pyMaxLen cs).length < 5 * (joinNL (mergedLinesSpec cs)).length
       then joinNL (mergedLinesSpec cs) else pyMaxLen cs) ∧
    consensusSelect ["AB\nCD".toList, "CD\nEF".toList] = "AB\nCD\nEF".toList :=
  ⟨pyMaxLen_spec cs h, collectLines_eq cs, consensusSelect_branch cs h, by decide⟩

/-- Witness for `consensus_selector_spec` at a concrete candidate set. -/
theorem consensus_selector_spec_witness :
    (["AB\nCD".toList, "CD\nEF".toList] ≠ ([] : List Str)) ∧
    consensusSelect ["AB\nCD".toList, "CD\nEF".toList] = "AB\nCD\nEF".toList :=
  ⟨by decide, (consensus_selector_spec ["AB\nCD".toList, "CD\nEF".toList] (by decide)).2.2.2⟩

/-- **C2**: For every `num_passes ≥ 1` the Pass Scheduler records
exactly `num_passes` backend invocations, pass `k` uses variant
`k mod len(variants)` and layout mode `k mod len(modes)` from the fixed
four-element mode catalogue (all distinct), and the invocation schedule
is the same for any two backends, hence identical across runs with the
same image, language and pass count. -/
theorem pass_scheduler_spec {Image : Type} (ops : PILOps Image)
    (backend backend2 : Backend Image) (image : Image) (lang : String) (n : Nat)
    (h : 1 ≤ n) :
    (runPasses backend ops image lang n).2.length = n ∧
    (runPasses backend ops image lang n).2 =
      (List.range n).map (passEntry (preprocessImage ops image).length) ∧
    psmModes.length = 4 ∧ (psmModes.map Prod.fst).Nodup ∧
    (runPasses backend ops image lang n).2 = (runPasses backend2 ops image lang n).2 := by
  obtain ⟨-, h2⟩ := runPasses_spec backend ops image lang n
  obtain ⟨-, h2b⟩ := runPasses_spec backend2 ops image lang n
  refine ⟨by rw [h2]; simp, h2, by decide, by decide, by rw [h2, h2b]⟩

/-- Witness for `pass_scheduler_spec` at a concrete schedule of five
passes. -/
theorem pass_scheduler_spec_witness :
    1 ≤ 5 ∧
    ((runPasses (fun _ _ _ => none) testOps rgbImage "ara" 5).2.length = 5 ∧
      (runPasses (fun _ _ _ => none) testOps rgbImage "ara" 5).2 =
        (List.range 5).map (passEntry (preprocessImage testOps rgbImage).length) ∧
      psmModes.length = 4 ∧ (psmModes.map Prod.fst).Nodup ∧
      (runPasses (fun _ _ _ => none) testOps rgbImage "ara" 5).2 =
        (runPasses (fun _ _ _ => some ['T']) testOps rgbImage "ara" 5).2) :=
  ⟨by decide, pass_scheduler_spec testOps (fun _ _ _ => none) (fun _ _ _ => some ['T'])
    rgbImage "ara" 5 (by decide)⟩

/-- **C3**: The Variant Generator's first element is the (pixel
identical) copy of the input, its length is 5 for a non-single-channel
image and 4 for a grayscale (`'L'`) one, and the variants are, in
order: identity copy, contrast 1.5×, sharpness 2.0×, median filter,
and, for non-grayscale images, grayscale conversion followed by
contrast 2.0× — each derived from the source image, not chained. -/
theorem variant_generator_spec {Image : Type} (ops : PILOps Image) (img : Image)
    (hcopy : ops.copy img = img) :
    (preprocessImage ops img).head? = some img ∧
    (preprocessImage ops img).length = (if ops.mode img = "L" then 4 else 5) ∧
    preprocessImage ops img =
      [img, ops.contrastEnhance img (3 / 2), ops.sharpnessEnhance img 2, ops.medianFilter img 3]
        ++ (if ops.mode img = "L" then []
            else [ops.contrastEnhance (ops.convertL img) 2]) := by
  by_cases h : ops.mode img = "L" <;> simp [preprocessImage, h, hcopy]

/-- Witness for `variant_generator_spec` on a concrete RGB image. -/
theorem variant_generator_spec_witness :
    testOps.copy rgbImage = rgbImage ∧
    ((preprocessImage testOps rgbImage).head? = some rgbImage ∧
      (preprocessImage testOps rgbImage).length =
        (if testOps.mode rgbImage = "L" then 4 else 5) ∧
      preprocessImage testOps rgbImage =
        [rgbImage, testOps.contrastEnhance rgbImage (3 / 2),
          testOps.sharpnessEnhance rgbImage 2, testOps.medianFilter rgbImage 3]
          ++ (if testOps.mode rgbImage = "L" then []
              else [testOps.contrastEnhance (testOps.convertL rgbImage) 2])) :=
  ⟨rfl, variant_generator_spec testOps rgbImage rfl⟩

/-- **C6**: Each pass contributes independently: a failed backend
invocation contributes nothing and processing continues (the candidate
list is the pass-wise `filterMap` and the invocation count is still
`num_passes`), and every collected candidate is non-empty and already
trimmed — failed or whitespace-only passes leave no placeholder. -/
theorem per_pass_failure_spec {Image : Type} (backend : Backend Image) (ops : PILOps Image)
    (image : Image) (lang : String) (n : Nat) :
    (runPasses backend ops image lang n).1 =
      (List.range n).filterMap (passResult backend ops image lang) ∧
    (∀ c ∈ (runPasses backend ops image lang n).1, c ≠ [] ∧ pyStrip c = c) ∧
    (runPasses backend ops image lang n).2.length = n := by
  obtain ⟨h1, h2⟩ := runPasses_spec backend ops image lang n
  refine ⟨h1, ?_, by rw [h2]; simp⟩
  intro c hc
  rw [h1] at hc
  obtain ⟨k, -, hek⟩ := List.mem_filterMap.mp hc
  exact passResult_some backend ops image lang k c hek

/-- **C9**: The Consensus Selector is idempotent on a single non-empty
candidate. -/
theorem selector_idempotent (x : Str) (hx : x ≠ []) : consensusSelect [x] = x := by
  have h0 : consensusSelect [x] =
      if 6 * (pyMaxLen [x]).length < 5 * (joinNL (collectLines [x])).length
      then joinNL (collectLines [x]) else pyMaxLen [x] := rfl
  have hb : pyMaxLen [x] = x := rfl
  have hm := merged_length_le_single x
  rw [h0, hb, if_neg (by omega)]

/-- Witness for `selector_idempotent` at a concrete candidate. -/
theorem selector_idempotent_witness :
    "AB\nCD".toList ≠ ([] : Str) ∧
    consensusSelect ["AB\nCD".toList] = "AB\nCD".toList :=
  ⟨by decide, selector_idempotent "AB\nCD".toList (by decide)⟩

/-- **C10**: On a non-empty candidate set the selected page result is
at least as long as every candidate and is non-empty whenever some
candidate is non-empty. -/
theorem selector_dominates (cs : List Str) (h : cs ≠ []) :
    (∀ c ∈ cs, c.length ≤ (consensusSelect cs).length) ∧
    ((∃ c ∈ cs, c ≠ []) → consensusSelect cs ≠ []) := by
  obtain ⟨-, hle, -⟩ := pyMaxLen_spec cs h
  have hbranch := consensusSelect_branch cs h
  by_cases hcond : 6 * (pyMaxLen cs).length < 5 * (joinNL (mergedLinesSpec cs)).length
  · rw [hbranch, if_pos hcond]
    constructor
    · intro c hc
      have := hle c hc
      omega
    · rintro ⟨c, hc, hcne⟩
      have h1 := hle c hc
      have h2 : 0 < c.length := List.length_pos.mpr hcne
      rw [← List.length_pos]
      omega
  · rw [hbranch, if_neg hcond]
    refine ⟨hle, ?_⟩
    rintro ⟨c, hc, hcne⟩
    have h1 := hle c hc
    have h2 : 0 < c.length := List.length_pos.mpr hcne
    rw [← List.length_pos]
    omega

/-- Witness for `selector_dominates` at a concrete candidate set. -/
theorem selector_dominates_witness :
    (["hello world".toList, "hello".toList] ≠ ([] : List Str)) ∧
    ((∀ c ∈ ["hello world".toList, "hello".toList],
        c.length ≤ (consensusSelect ["hello world".toList, "hello".toList]).length) ∧
      ((∃ c ∈ ["hello world".toList, "hello".toList], c ≠ []) →
        consensusSelect ["hello world".toList, "hello".toList] ≠ [])) :=
  ⟨by decide, selector_dominates ["hello world".toList, "hello".toList] (by decide)⟩

/-- **C4**: A rasterization failure aborts the whole run with a single
terminal `error` notification and nothing written; a failure of the
final write is likewise surfaced as a terminal `error`; and with any
backend whatsoever (including an always-failing one) a run with
successful rasterization and write ends in `finished` — per-page OCR
failures never abort the document. -/
theorem orchestrator_failure_spec {Image : Type} (backend : Backend Image)
    (ops : PILOps Image) (lang : String) (n : Nat) (outPath : String) :
    (∀ (e : String) (write : Str → Except String Unit),
      (processPdf (Except.error e) write backend ops lang n outPath).2 = none ∧
      (processPdf (Except.error e) write backend ops lang n outPath).1.getLast? =
        some (Event.error e) ∧
      ∀ p pc ps, Event.finished p pc ps ∉
        (processPdf (Except.error e) write backend ops lang n outPath).1) ∧
    (∀ (images : List Image) (e : String),
      (processPdf (Except.ok images) (fun _ => Except.error e) backend ops lang n
        outPath).2 = none ∧
      (processPdf (Except.ok images) (fun _ => Except.error e) backend ops lang n
        outPath).1.getLast? = some (Event.error e) ∧
      ∀ p pc ps, Event.finished p pc ps ∉
        (processPdf (Except.ok images) (fun _ => Except.error e) backend ops lang n
          outPath).1) ∧
    (∀ images : List Image,
      (processPdf (Except.ok images) (fun _ => Except.ok ()) backend ops lang n
        outPath).1.getLast? = some (Event.finished outPath images.length n) ∧
      ∃ t, (processPdf (Except.ok images) (fun _ => Except.ok ()) backend ops lang n
        outPath).2 = some t) := by
  refine ⟨?_, ?_, ?_⟩
  · intro e write
    refine ⟨rfl, rfl, ?_⟩
    intro p pc ps
    simp [processPdf]
  · intro images e
    have h0 : processPdf (Except.ok images) (fun _ => Except.error e) backend ops lang n
        outPath =
        (([Event.progress (1 / 20), Event.status "Converting PDF to images...",
          Event.status ("Found " ++ toString images.length ++ " pages"),
          Event.progress (1 / 10)]
          ++ (pageLoop backend ops lang n images.length images 1 []).1
          ++ [Event.progress (19 / 20)]) ++ [Event.error e], none) := rfl
    refine ⟨by rw [h0], by rw [h0]; exact List.getLast?_concat _, ?_⟩
    intro p pc ps hmem
    rw [h0] at hmem
    simp only [List.mem_append, List.mem_cons, List.not_mem_nil, or_false] at hmem
    rcases hmem with (((h | h | h | h) | h) | h) | h
    · exact Event.noConfusion h
    · exact Event.noConfusion h
    · exact Event.noConfusion h
    · exact Event.noConfusion h
    · exact (pageLoop_no_terminal backend ops lang n images.length images 1 []
        (Event.finished p pc ps) h).1 p pc ps rfl
    · exact Event.noConfusion h
    · exact Event.noConfusion h
  · intro images
    exact ⟨processPdf_ok_ok_getLast backend ops lang n outPath images,
      ⟨_, processPdf_ok_ok_snd backend ops lang n outPath images⟩⟩

/-- Counterexample to **C5** as stated: on a one-page run the progress
value 95% is emitted twice (at the last page and again before the
write), so the emitted progress sequence is not strictly increasing. -/
theorem progress_strictness_counterexample :
    ((processPdf (Except.ok [rgbImage]) (fun _ => Except.ok ())
        (fun _ _ _ => none) testOps "ara" 2 "out.txt").1.filterMap progressOf) =
      [1 / 20, 1 / 10, 19 / 20, 19 / 20, 1] ∧
    ¬ ((processPdf (Except.ok [rgbImage]) (fun _ => Except.ok ())
        (fun _ _ _ => none) testOps "ara" 2 "out.txt").1.filterMap progressOf).Chain'
        (· < ·) := by
  have h : ((processPdf (Except.ok [rgbImage]) (fun _ => Except.ok ())
      (fun _ _ _ => none) testOps "ara" 2 "out.txt").1.filterMap progressOf) =
      [1 / 20, 1 / 10, 19 / 20, 19 / 20, 1] := by
    norm_num [processPdf, pageLoop, progressOf, List.filterMap]
  refine ⟨h, ?_⟩
  rw [h]
  intro hc
  rw [List.chain'_cons, List.chain'_cons, List.chain'_cons] at hc
  exact absurd hc.2.2.1 (lt_irrefl _)

/-- **C5**, amended: the run emits 5% at rasterization, 10% when the
images are ready, `10% + i/total*85%` per page `i`, 95% before the
write and 100% at the end; the sequence is non-decreasing (not strictly
increasing: 95% is emitted twice) and terminates at 100%. -/
theorem progress_monotone_spec {Image : Type} (backend : Backend Image)
    (ops : PILOps Image) (lang : String) (n : Nat) (outPath : String)
    (images : List Image) :
    ((processPdf (Except.ok images) (fun _ => Except.ok ()) backend ops lang n
        outPath).1.filterMap progressOf) =
      [1 / 20, 1 / 10] ++ (List.range' 1 images.length).map
        (fun j : Nat => 1 / 10 + (j : ℚ) / (images.length : ℚ) * (17 / 20)) ++
        [19 / 20, 1] ∧
    ((processPdf (Except.ok images) (fun _ => Except.ok ()) backend ops lang n
        outPath).1.filterMap progressOf).Pairwise (· ≤ ·) ∧
    ((processPdf (Except.ok images) (fun _ => Except.ok ()) backend ops lang n
        outPath).1.filterMap progressOf).getLast? = some 1 := by
  have h := processPdf_ok_ok_progress backend ops lang n outPath images
  refine ⟨h, ?_, ?_⟩
  · rw [h]
    exact progressSeq_pairwise images.length
  · rw [h, List.getLast?_append_of_ne_nil _ (by simp)]
    rfl

/-- **C7**: With an empty candidate set the Consensus Selector returns
the empty string (both an always-failing and a whitespace-only backend
produce an empty candidate set), and a document run whose every pass
fails still completes: it writes the document with every page section
blank and ends with the `finished` notification. -/
theorem empty_candidates_spec {Image : Type} (ops : PILOps Image) (lang : String)
    (n : Nat) (outPath : String) (images : List Image) :
    consensusSelect [] = [] ∧
    (∀ image : Image, (runPasses (fun _ _ _ => none) ops image lang n).1 = []) ∧
    (∀ image : Image,
      (runPasses (fun _ _ _ => some [' ', '\n']) ops image lang n).1 = []) ∧
    (processPdf (Except.ok images) (fun _ => Except.ok ()) (fun _ _ _ => none) ops
      lang n outPath).2 =
      some (joinNL ((List.enumFrom 1 images).map (fun p => pageSection p.1 []))) ∧
    (processPdf (Except.ok images) (fun _ => Except.ok ()) (fun _ _ _ => none) ops
      lang n outPath).1.getLast? = some (Event.finished outPath images.length n) := by
  have hfail : ∀ image : Image, (runPasses (fun _ _ _ => none) ops image lang n).1 = [] := by
    intro image
    rw [(runPasses_spec _ ops image lang n).1]
    simp [passResult]
  have hws : ∀ image : Image,
      (runPasses (fun _ _ _ => some [' ', '\n']) ops image lang n).1 = [] := by
    intro image
    rw [(runPasses_spec _ ops image lang n).1]
    have hstrip : pyStrip [' ', '\n'] = [] := by decide
    simp [passResult, hstrip]
  refine ⟨rfl, hfail, hws, ?_, processPdf_ok_ok_getLast _ ops lang n outPath images⟩
  rw [processPdf_ok_ok_snd]
  have hsec : ∀ p : Nat × Image,
      pageSection p.1 (ocrMultiplePasses (fun _ _ _ => none) ops p.2 lang n) =
        pageSection p.1 [] := by
    intro p
    show pageSection p.1
        (consensusSelect (runPasses (fun _ _ _ => none) ops p.2 lang n).1) = _
    rw [hfail p.2]
    rfl
  simp only [hsec]

/-- Counterexample to **C8** as stated: the separator written by the
code is sixty `=` characters, not the six of the claimed exact form, so
already a one-page document differs from the claimed output. -/
theorem page_section_counterexample :
    (processPdf (Except.ok [rgbImage]) (fun _ => Except.ok ())
        (fun _ _ _ => some ['T']) testOps "ara" 1 "out.txt").2 =
      some (pageSection 1 ['T']) ∧
    pageSection 1 ['T'] ≠ claimedSection 1 ['T'] := by
  constructor
  · rw [processPdf_ok_ok_snd]
    have hocr : ocrMultiplePasses (fun _ _ _ => some ['T']) testOps rgbImage "ara" 1 =
        ['T'] := by decide
    simp [hocr, joinNL]
  · decide

/-- **C8**, amended: each page is appended as the section
`"\n" ++ 60 '=' ++ "\nPage i\n" ++ 60 '=' ++ "\n\n" ++ text ++ "\n"`
(`pageSection`), and the written document is these sections in
ascending page order joined with a newline separator. -/
theorem document_assembly_spec {Image : Type} (backend : Backend Image)
    (ops : PILOps Image) (lang : String) (n : Nat) (outPath : String)
    (images : List Image) :
    (processPdf (Except.ok images) (fun _ => Except.ok ()) backend ops lang n
      outPath).2 =
      some (joinNL ((List.enumFrom 1 images).map
        (fun p => pageSection p.1 (ocrMultiplePasses backend ops p.2 lang n)))) :=
  processPdf_ok_ok_snd backend ops lang n outPath images

end PdfOcr
